import Mathlib

/-!
Verification of the SimpleCV `LineScan` module (src/SimpleCV/LineScan.py).

A `LineScan` is a Python `list` subclass holding numeric samples together
with per-sample 2D coordinates (`pointLoc`), an optional source-image
reference (`image`) and two optional endpoints (`pt1`, `pt2`).  We embed it
shallowly: samples are rational numbers (the floating-point code is modelled
by exact arithmetic, which is the regime all the claims speak about), and
the real/complex-valued operations (`smooth`, `fft`, `ifft`) are embedded
over `ℝ`/`ℂ`.  The structure is polymorphic in the sample type so that the
metadata plumbing, which is shared by every method, is embedded once.
-/

namespace SimpleCV

/-- Resolve a (step-1) Python slice bound against a list of length `n`:
a negative index counts from the end, and the result is clamped to
`[0, n]`.  `l[a:b]` is then the elements of `l` with positions in
`[resolve a, resolve b)`. -/
def pyRes (n : ℕ) (i : ℤ) : ℕ :=
  if i < 0 then (n + i).toNat else min i.toNat n

/-- Python slice `l[a:b]` (step 1), with full negative-index semantics.
In particular `l[a:0] = []` — the source writes `out[kt:-1*kl]`, and when
`kl = 0` the stop bound `-0 = 0` makes the slice empty. -/
def pySlice (l : List α) (a b : ℤ) : List α :=
  (l.take (pyRes l.length b)).drop (pyRes l.length a)

/-- The LineScan data model (class attributes plus the attributes set in
`__init__`).  `image` is the attribute read by every method; `img` is the
attribute the constructor actually writes the `image` keyword into (a slip
in the source: `self.img = kwargs[key]` at line 44).  Image references are
opaque; we model them as `Option ℕ` tokens. -/
structure LineScan (α : Type) where
  samples : List α
  pointLoc : List (ℚ × ℚ)
  image : Option ℕ
  img : Option ℕ
  pt1 : Option (ℚ × ℚ)
  pt2 : Option (ℚ × ℚ)

/-- Model of `LineScan.__init__` (lines 33-53).  The recognised keyword
arguments are `pointLocs`, `image`, `pt1` and `pt2`.  Every method of the
class calls the constructor with the keyword `pointLoc` (no trailing `s`),
which is *not* recognised and is silently dropped — we keep that argument
here, unused, to mirror each call site faithfully.  `self.image` is set to
`None` at line 35 and never overwritten (the `image` keyword lands in
`self.img`); when no `pointLocs` keyword is given, `pointLoc` defaults to
`zip(range(len(self)), range(len(self)))`. -/
def buildLineScan (samples : List α) (pointLocsKw : Option (List (ℚ × ℚ)))
    (pointLocKw : Option (List (ℚ × ℚ))) (imageKw : Option ℕ)
    (pt1Kw pt2Kw : Option (ℚ × ℚ)) : LineScan α :=
  { samples := samples
    pointLoc :=
      match pointLocsKw with
      | some p => p
      | none => (List.range samples.length).map (fun i : ℕ => ((i : ℚ), (i : ℚ)))
    image := none
    img := imageKw
    pt1 := pt1Kw
    pt2 := pt2Kw }

/-- Model of `np.max` (errors on an empty array; totalised with 0). -/
def npMax : List ℚ → ℚ
  | [] => 0
  | h :: t => t.foldl max h

/-- Model of `np.min` (errors on an empty array; totalised with 0). -/
def npMin : List ℚ → ℚ
  | [] => 0
  | h :: t => t.foldl min h

/-- Insertion into a sorted list, for the sort underlying `np.median`. -/
def insertSorted (x : ℚ) : List ℚ → List ℚ
  | [] => [x]
  | y :: ys => if x ≤ y then x :: y :: ys else y :: insertSorted x ys

/-- Ascending insertion sort (the order `np.median` sorts in). -/
def sortQ (l : List ℚ) : List ℚ := l.foldr insertSorted []

/-- Model of `np.median`: sort ascending; odd length takes the middle
element, even length averages the two middle elements.  (`np.median` of an
empty array is NaN; modelled as 0 — that case is reachable only for window
size ≤ 1.) -/
def npMedian (l : List ℚ) : ℚ :=
  let s := sortQ l
  if l.length % 2 = 1 then s.getD (l.length / 2) 0
  else (s.getD (l.length / 2 - 1) 0 + s.getD (l.length / 2) 0) / 2

/-- Model of `np.convolve(a, v)` in its default full mode: output index
`m < |a| + |v| - 1` holds `∑ j, a[j] * v[m - j]` over the positions where
both factors exist. -/
def npConvolve (a v : List ℚ) : List ℚ :=
  List.ofFn (fun m : Fin (a.length + v.length - 1) =>
    ∑ j ∈ Finset.range a.length,
      if j ≤ (m : ℕ) then a.getD j 0 * v.getD ((m : ℕ) - j) 0 else 0)

/-- Model of `np.clip` on integers. -/
def clipZ (x lo hi : ℤ) : ℤ := min (max x lo) hi

/-- Model of `np.around(·, 0)`: round half to even. -/
def roundHalfEven (q : ℚ) : ℤ :=
  let f := ⌊q⌋
  if q - f < 1 / 2 then f
  else if 1 / 2 < q - f then f + 1
  else if f % 2 = 0 then f else f + 1

namespace LineScan

/-- Model of `LineScan.normalize` (lines 123-148): divide every sample by
the maximum sample.  (Division by a zero maximum is a numeric error in the
source; Lean division totalises it as 0.) -/
def normalize (S : LineScan ℚ) : LineScan ℚ :=
  buildLineScan (S.samples.map (fun x => x / npMax S.samples))
    none (some S.pointLoc) S.image S.pt1 S.pt2

/-- Model of `LineScan.scale` (lines 150-189): remap
`[min samples, max samples]` linearly onto `[min range, max range]`. -/
def scale (S : LineScan ℚ) (value_range : ℚ × ℚ) : LineScan ℚ :=
  let vmax := npMax S.samples
  let vmin := npMin S.samples
  let a := min value_range.1 value_range.2
  let b := max value_range.1 value_range.2
  buildLineScan (S.samples.map (fun x => (b - a) / (vmax - vmin) * (x - vmin) + a))
    none (some S.pointLoc) S.image S.pt1 S.pt2

/-- Model of `LineScan.derivative` (lines 262-290): `d[0] = 0`, then the
successive differences `temp[1:] - temp[0:-1]`. -/
def derivative (S : LineScan ℚ) : LineScan ℚ :=
  buildLineScan ((0 : ℚ) :: S.samples.tail.zipWith (fun a b => a - b) S.samples)
    none (some S.pointLoc) S.image S.pt1 S.pt2

/-- Model of `LineScan.minima` (lines 191-224): every index whose sample
equals `np.min`, zipped with that value and the matching `pointLoc` entry
(numpy fancy indexing `pts[idxs]`, total here via `getD`). -/
def minima (S : LineScan ℚ) : List (ℕ × ℚ × (ℚ × ℚ)) :=
  let m := npMin S.samples
  ((List.range S.samples.length).filter (fun i => decide (S.samples.getD i 0 = m))).map
    (fun i => (i, m, S.pointLoc.getD i (0, 0)))

/-- Model of `LineScan.maxima` (lines 226-260), dual to `minima`. -/
def maxima (S : LineScan ℚ) : List (ℕ × ℚ × (ℚ × ℚ)) :=
  let m := npMax S.samples
  ((List.range S.samples.length).filter (fun i => decide (S.samples.getD i 0 = m))).map
    (fun i => (i, m, S.pointLoc.getD i (0, 0)))

/-- Index set of `LineScan.localMaxima` (line 318):
`np.r_[True, temp[1:] > temp[:-1]] & np.r_[temp[:-1] > temp[1:], True]`.
Position `i` of the first array is `True` for `i = 0` and otherwise
`temp[i] > temp[i-1]`; position `i` of the second is `True` for the last
index and otherwise `temp[i] > temp[i+1]`. -/
def localMaxIndices (l : List ℚ) : List ℕ :=
  (List.range l.length).filter (fun i =>
    (decide (i = 0) || decide (l.getD (i - 1) 0 < l.getD i 0)) &&
    (decide (i = l.length - 1) || decide (l.getD (i + 1) 0 < l.getD i 0)))

/-- Index set of `LineScan.localMinima` (line 353), dual to
`localMaxIndices`. -/
def localMinIndices (l : List ℚ) : List ℕ :=
  (List.range l.length).filter (fun i =>
    (decide (i = 0) || decide (l.getD i 0 < l.getD (i - 1) 0)) &&
    (decide (i = l.length - 1) || decide (l.getD i 0 < l.getD (i + 1) 0)))

/-- Model of `LineScan.localMaxima` (lines 292-324). -/
def localMaxima (S : LineScan ℚ) : List (ℕ × ℚ × (ℚ × ℚ)) :=
  (localMaxIndices S.samples).map
    (fun i => (i, S.samples.getD i 0, S.pointLoc.getD i (0, 0)))

/-- Model of `LineScan.localMinima` (lines 327-359). -/
def localMinima (S : LineScan ℚ) : List (ℕ × ℚ × (ℚ × ℚ)) :=
  (localMinIndices S.samples).map
    (fun i => (i, S.samples.getD i 0, S.pointLoc.getD i (0, 0)))

/-- Model of `LineScan.resample` (lines 361-398).  `scipy.signal.resample`
is an external library call; it is passed in as a parameter `sps`, to be
constrained by its documented contract (the output has exactly `n`
samples).  Lines 392-394 of the source compute linearly interpolated
coordinates `pts` that are never used — the assignment
`retVal.pointLoc = pts` is commented out, and the `pointLoc` keyword passed
to the constructor is dropped (see `buildLineScan`). -/
def resample (S : LineScan ℚ) (sps : List ℚ → ℕ → List ℚ) (n : ℕ) : LineScan ℚ :=
  buildLineScan (sps S.samples n) none (some S.pointLoc) S.image S.pt1 S.pt2

/-- Model of `LineScan.fitToModel` (lines 407-446).  The call to
`scipy.optimize.curve_fit` is an external optimizer; its output parameter
vector is taken as the argument `popt`.  The result holds the model `f`
evaluated at the original indices. -/
def fitToModel (S : LineScan ℚ) (f : ℕ → List ℚ → ℚ) (popt : List ℚ) : LineScan ℚ :=
  buildLineScan ((List.range S.samples.length).map (fun x => f x popt))
    none (some S.pointLoc) S.image S.pt1 S.pt2

/-- Model of `LineScan.convolve` (lines 484-527): full convolution, then
the Python slice `out[kt:-1*kl]` with `kt = k/2, kl = k/2 - 1` for even
kernel length `k` and `kt = kl = (k-1)/2` for odd. -/
def convolve (S : LineScan ℚ) (kernel : List ℚ) : LineScan ℚ :=
  let k := kernel.length
  let kl := if k % 2 = 0 then k / 2 - 1 else (k - 1) / 2
  let kt := if k % 2 = 0 then k / 2 else (k - 1) / 2
  buildLineScan (pySlice (npConvolve S.samples kernel) (kt : ℤ) (-(kl : ℤ)))
    none (some S.pointLoc) S.image S.pt1 S.pt2

/-- Model of `LineScan.threshold` (lines 642-655): samples strictly below
the threshold map to `low`, all others (including samples equal to the
threshold) map to `high`; `invert` swaps the two output levels. -/
def threshold (S : LineScan ℚ) (t : ℚ) (invert : Bool) : LineScan ℚ :=
  let high : ℚ := if invert then 0 else 255
  let low : ℚ := if invert then 255 else 0
  buildLineScan (S.samples.map (fun pt => if pt < t then low else high))
    none (some S.pointLoc) S.image S.pt1 S.pt2

/-- Model of `LineScan.invert` (lines 657-662): `255 - x` per sample. -/
def invert (S : LineScan ℚ) : LineScan ℚ :=
  buildLineScan (S.samples.map (fun pt => 255 - pt))
    none (some S.pointLoc) S.image S.pt1 S.pt2

/-- Model of `LineScan.median` (lines 664-680): force the window size odd,
copy the first `skip = sz/2` samples, then for each interior index `idx`
append `np.median(self[(idx-skip):(idx+skip)])` (note the exclusive upper
slice bound: the window has `2*skip` samples), then copy `self[-skip:]`. -/
def median (S : LineScan ℚ) (sz : ℕ) : LineScan ℚ :=
  let sz2 := if sz % 2 = 0 then sz + 1 else sz
  let skip := sz2 / 2
  let vsz := S.samples.length
  let mids := (List.range (vsz - 2 * skip)).map
    (fun t => npMedian (pySlice S.samples (t : ℤ) ((t : ℤ) + 2 * skip)))
  buildLineScan
    (pySlice S.samples 0 (skip : ℤ) ++ mids ++ pySlice S.samples (-(skip : ℤ)) (vsz : ℤ))
    none (some S.pointLoc) S.image S.pt1 S.pt2

/-- Model of `LineScan.applyLUT` (lines 696-707): map every sample through
the table (`lut[pt]` errors outside `[0, len lut)`; total here via `getD`).
The samples are the 8-bit indices, so this method lives on `LineScan ℕ`. -/
def applyLUT (S : LineScan ℕ) (lut : List ℚ) : LineScan ℚ :=
  buildLineScan (S.samples.map (fun pt => lut.getD pt 0))
    none (some S.pointLoc) S.image S.pt1 S.pt2

/-- Model of `LineScan.createEmptyLUT` (lines 593-627).  The argument is
either a number (`Sum.inl`) or a pair (`Sum.inr`).  A pair gives the
rounded `np.linspace` ramp between the two clipped values; `0` gives all
zeros; a positive value a constant fill clipped to `[1,255]`; a negative
value `np.linspace(0,256,256)` cast to `uint8`.  That linspace entry `i` is
exactly `256*i/255` (its distance to the nearest integer exceeds any
float64 rounding error, and numpy pins the final entry to the stop value
`256.0`), and the `uint8` cast truncates and wraps modulo 256. -/
def createEmptyLUT (defaultVal : ℤ ⊕ (ℤ × ℤ)) : List ℤ :=
  match defaultVal with
  | Sum.inr (a0, b0) =>
      let start := clipZ a0 0 255
      let stop := clipZ b0 0 255
      (List.range 256).map
        (fun i => roundHalfEven ((start : ℚ) + ((stop : ℚ) - start) * i / 255) % 256)
  | Sum.inl d =>
      if d = 0 then List.replicate 256 0
      else if 0 < d then List.replicate 256 (clipZ d 1 255)
      else (List.range 256).map (fun i => 256 * (i : ℤ) / 255 % 256)

end LineScan

/-- Model of the Gaussian kernel of `LineScan.smooth` (lines 102-110):
`window = 2*degree - 1`, and weight `i` is `1 / exp((4*(i-degree+1)/window)^2)`
(the elementwise product with the all-ones array at line 110 is the
identity).  The embedding assumes `degree ≥ 1`, the method's contract. -/
noncomputable def smoothWeights (degree : ℕ) : List ℝ :=
  (List.range (2 * degree - 1)).map
    (fun i => 1 / Real.exp ((4 * (((i : ℝ) - degree + 1) / (2 * degree - 1))) ^ 2))

/-- Model of `np.fft.fft`: output `k` is `∑ j, x_j · exp(-2πi·j·k/n)`. -/
noncomputable def npFFT (l : List ℝ) : List ℂ :=
  List.ofFn (fun k : Fin l.length =>
    ∑ j ∈ Finset.range l.length,
      ((l.getD j 0 : ℝ) : ℂ) *
        Complex.exp (-(2 * (Real.pi : ℂ) * Complex.I * j * k) / l.length))

/-- Model of `np.fft.ifft`: output `m` is `(1/n) ∑ k, X_k · exp(2πi·k·m/n)`. -/
noncomputable def npIFFT (l : List ℂ) : List ℂ :=
  List.ofFn (fun m : Fin l.length =>
    (∑ k ∈ Finset.range l.length,
      l.getD k 0 * Complex.exp (2 * (Real.pi : ℂ) * Complex.I * k * m / l.length))
      / l.length)

/-- Model of `np.fft.fftfreq(n)`: `[0, 1, ..., (n-1)/2, -(n/2), ..., -1] / n`. -/
def fftfreq (n : ℕ) : List ℚ :=
  (List.range n).map (fun k => if k ≤ (n - 1) / 2 then (k : ℚ) / n else ((k : ℚ) - n) / n)

namespace LineScan

/-- Model of `LineScan.smooth` (lines 76-121): unsmoothed front
`self[0:degree-1]`, the sliding Gaussian-weighted averages of every
`window`-wide slice, and unsmoothed tail `self[-degree:]`. -/
noncomputable def smooth (S : LineScan ℝ) (degree : ℕ) : LineScan ℝ :=
  let window := 2 * degree - 1
  let w := smoothWeights degree
  let smoothed := (List.range (S.samples.length - window)).map
    (fun i => (∑ j ∈ Finset.range window, S.samples.getD (i + j) 0 * w.getD j 0) /
      (∑ j ∈ Finset.range window, w.getD j 0))
  buildLineScan
    (pySlice S.samples 0 ((degree : ℤ) - 1) ++ smoothed ++
      pySlice S.samples (-(degree : ℤ)) (S.samples.length : ℤ))
    none (some S.pointLoc) S.image S.pt1 S.pt2

/-- Model of `LineScan.fft` (lines 529-555): the DFT of the samples and the
per-bin frequencies. -/
noncomputable def fft (S : LineScan ℝ) : List ℂ × List ℚ :=
  (npFFT S.samples, fftfreq S.samples.length)

/-- Model of `LineScan.ifft` (lines 558-591): build a LineScan from the
real part of the inverse transform — the constructor is called with *no*
keyword arguments, so `pt1`/`pt2` are `None` — then assign `image` and
`pointLoc` from the invoking signal. -/
noncomputable def ifft (S : LineScan α) (fft : List ℂ) : LineScan ℝ :=
  let r := buildLineScan ((npIFFT fft).map Complex.re) none none none none none
  { r with image := S.image, pointLoc := S.pointLoc }

end LineScan

/-- Model of `np.linspace a b n` over ℚ: `n` evenly spaced points from `a`
to `b` inclusive (a single point is just `a`). -/
def linspaceQ (a b : ℚ) (n : ℕ) : List ℚ :=
  (List.range n).map (fun k => if n ≤ 1 then a else a + (b - a) * k / ((n : ℚ) - 1))

/-- Spec-side definition, for comparison with the code: the coordinates
`resample` is described as regenerating — `n` evenly spaced points linearly
interpolated between the original first and last coordinate (this is also
what the dead lines 392-394 of the source compute). -/
def resampleSpecCoords (S : LineScan ℚ) (n : ℕ) : List (ℚ × ℚ) :=
  (linspaceQ (S.pointLoc.headD (0, 0)).1 (S.pointLoc.getLastD (0, 0)).1 n).zip
    (linspaceQ (S.pointLoc.headD (0, 0)).2 (S.pointLoc.getLastD (0, 0)).2 n)

/-! ### Concrete signals used by counterexamples and witnesses -/

/-- The signal `[1, 2, 1]` with default coordinates. -/
def sig121 : LineScan ℚ := buildLineScan [1, 2, 1] none none none none none

/-- A two-sample signal whose coordinates were supplied explicitly
(through the recognised `pointLocs` keyword). -/
def sigAB : LineScan ℚ := buildLineScan [1, 2] (some [(10, 10), (20, 20)]) none none none none

/-- A model instance of `scipy.signal.resample` obeying its contract
(exactly `n` output samples); the claims never depend on the resampled
values, only on their number. -/
def sps0 : List ℚ → ℕ → List ℚ := fun _ m => List.replicate m 0

/-- A real-valued signal with both endpoints set. -/
def sigR1 : LineScan ℝ := ⟨[1], [(0, 0)], none, none, some (1, 2), some (3, 4)⟩

/-- The signal `[0, 10, 0, 10, 0]`, on which the median filter's window
arithmetic is visible. -/
def sigMed : LineScan ℚ := buildLineScan [0, 10, 0, 10, 0] none none none none none

/-- The constant signal `[5, 5, 5]` with default coordinates. -/
def sig555 : LineScan ℚ := buildLineScan [5, 5, 5] none none none none none

/-! ### Claim theorems -/

/-- Claim C10: a sample exactly equal to the threshold maps to the high
value (255 for `invert = false`, 0 for `invert = true`); a sample receives
the low value exactly when it is strictly below the threshold. -/
theorem threshold_equal_sample_goes_high (S : LineScan ℚ) (t : ℚ) (inv : Bool) (i : ℕ)
    (h : i < S.samples.length) :
    (S.samples.getD i 0 = t →
      (S.threshold t inv).samples.getD i 0 = if inv then 0 else 255) ∧
    ((S.threshold t inv).samples.getD i 0 = (if inv then (255 : ℚ) else 0) ↔
      S.samples.getD i 0 < t) := by
  have e1 : ∀ f : ℚ → ℚ, (S.samples.map f).getD i 0 = f (S.samples.getD i 0) := by
    intro f
    rw [List.getD_eq_getElem?_getD, List.getElem?_map, List.getElem?_eq_getElem h,
      List.getD_eq_getElem?_getD, List.getElem?_eq_getElem h]
    rfl
  have hs : (S.threshold t inv).samples =
      S.samples.map (fun pt =>
        if pt < t then (if inv then (255 : ℚ) else 0) else (if inv then 0 else 255)) := rfl
  rw [hs, e1]
  refine ⟨fun ht => by rw [ht, if_neg (lt_irrefl t)], ?_, fun hlt => by rw [if_pos hlt]⟩
  intro hel
  by_contra hnlt
  rw [if_neg hnlt] at hel
  cases inv <;> norm_num at hel

/-- Claim C10 witness: on the signal `[1, 2, 1]` with threshold 1 at
index 0 (a sample exactly equal to the threshold). -/
theorem threshold_equal_sample_goes_high_witness :
    0 < sig121.samples.length ∧
    ((sig121.samples.getD 0 0 = 1 →
      (sig121.threshold 1 false).samples.getD 0 0 = 255) ∧
    ((sig121.threshold 1 false).samples.getD 0 0 = 0 ↔
      sig121.samples.getD 0 0 < 1)) :=
  ⟨by decide, threshold_equal_sample_goes_high sig121 1 false 0 (by decide)⟩

/-- Claim C9: the constructor stores the supplied image reference in the
`img` attribute while the `image` attribute (the one every method reads)
stays `None`; consequently every transformation produces a result whose
`image` is `None` (and `ifft`, which copies `image` afterwards, copies that
`None` along). -/
theorem image_reference_never_stored (α : Type) (s : List α)
    (plocs ploc : Option (List (ℚ × ℚ))) (r : ℕ) (p1 p2 : Option (ℚ × ℚ))
    (S : LineScan ℚ) (T : LineScan ℝ) (U : LineScan ℕ) (d n sz : ℕ) (vr : ℚ × ℚ)
    (t : ℚ) (inv : Bool) (kernel lut popt : List ℚ)
    (sps : List ℚ → ℕ → List ℚ) (f : ℕ → List ℚ → ℚ) (sp : List ℂ) :
    (buildLineScan s plocs ploc (some r) p1 p2).image = none ∧
    (buildLineScan s plocs ploc (some r) p1 p2).img = some r ∧
    (T.smooth d).image = none ∧
    S.normalize.image = none ∧ (S.scale vr).image = none ∧ S.derivative.image = none ∧
    (S.resample sps n).image = none ∧ (S.fitToModel f popt).image = none ∧
    (S.convolve kernel).image = none ∧ (S.threshold t inv).image = none ∧
    S.invert.image = none ∧ (S.median sz).image = none ∧ (U.applyLUT lut).image = none ∧
    (S.ifft sp).image = S.image :=
  ⟨rfl, rfl, rfl, rfl, rfl, rfl, rfl, rfl, rfl, rfl, rfl, rfl, rfl, rfl⟩

/-- Claim C3 counterexample: `ifft` does not carry the endpoints through —
on the (nonempty) one-bin spectrum `[1]` it builds the result with no
keyword arguments, so `pt1`/`pt2` come out `None` even though the invoking
signal has both set. -/
theorem ifft_drops_endpoints_cex :
    sigR1.pt1 = some (1, 2) ∧ sigR1.pt2 = some (3, 4) ∧
    (sigR1.ifft ([1] : List ℂ)).pt1 = none ∧ (sigR1.ifft ([1] : List ℂ)).pt2 = none :=
  ⟨rfl, rfl, rfl, rfl⟩

set_option maxRecDepth 4096 in
/-- Claim C3 (amended): every listed transformation except `ifft` carries
`pt1` and `pt2` through unchanged; `ifft` resets both to `None`. -/
theorem endpoints_preserved_except_ifft (S : LineScan ℚ) (T : LineScan ℝ) (U : LineScan ℕ)
    (d n sz : ℕ) (vr : ℚ × ℚ) (t : ℚ) (inv : Bool) (kernel lut popt : List ℚ)
    (sps : List ℚ → ℕ → List ℚ) (f : ℕ → List ℚ → ℚ) (sp : List ℂ) :
    (T.smooth d).pt1 = T.pt1 ∧ (T.smooth d).pt2 = T.pt2 ∧
    S.normalize.pt1 = S.pt1 ∧ S.normalize.pt2 = S.pt2 ∧
    (S.scale vr).pt1 = S.pt1 ∧ (S.scale vr).pt2 = S.pt2 ∧
    S.derivative.pt1 = S.pt1 ∧ S.derivative.pt2 = S.pt2 ∧
    (S.resample sps n).pt1 = S.pt1 ∧ (S.resample sps n).pt2 = S.pt2 ∧
    (S.fitToModel f popt).pt1 = S.pt1 ∧ (S.fitToModel f popt).pt2 = S.pt2 ∧
    (S.convolve kernel).pt1 = S.pt1 ∧ (S.convolve kernel).pt2 = S.pt2 ∧
    (S.threshold t inv).pt1 = S.pt1 ∧ (S.threshold t inv).pt2 = S.pt2 ∧
    S.invert.pt1 = S.pt1 ∧ S.invert.pt2 = S.pt2 ∧
    (S.median sz).pt1 = S.pt1 ∧ (S.median sz).pt2 = S.pt2 ∧
    (U.applyLUT lut).pt1 = U.pt1 ∧ (U.applyLUT lut).pt2 = U.pt2 ∧
    (S.ifft sp).pt1 = none ∧ (S.ifft sp).pt2 = none :=
  ⟨rfl, rfl, rfl, rfl, rfl, rfl, rfl, rfl, rfl, rfl, rfl, rfl,
    rfl, rfl, rfl, rfl, rfl, rfl, rfl, rfl, rfl, rfl, rfl, rfl⟩

set_option maxHeartbeats 1000000 in
/-- Claim C5 (code-bug evidence): with window size 3 on `[0,10,0,10,0]`,
the interior output at index 1 is the median of the *two* samples
`self[0:2] = [0, 10]`, namely 5 — not the median 0 of the three samples
centered there, as the method's own docstring (window size equal to size)
prescribes. -/
theorem median_short_window_bug :
    (sigMed.median 3).samples = [0, 5, 5, 5, 0] ∧
    (sigMed.median 3).samples.getD 1 0 = 5 ∧
    pySlice sigMed.samples ((1 : ℤ) - 1) ((1 : ℤ) + 1) = [0, 10] ∧
    npMedian [0, 10, 0] = 0 := by
  have e : (sigMed.median 3).samples
      = [0, npMedian [0, 10], npMedian [10, 0], npMedian [0, 10], 0] := by
    simp [LineScan.median, buildLineScan, List.range_succ, sigMed, pySlice, pyRes]
  have m1 : npMedian [0, 10] = 5 := by norm_num [npMedian, sortQ, insertSorted]
  have m2 : npMedian [10, 0] = 5 := by norm_num [npMedian, sortQ, insertSorted]
  refine ⟨?_, ?_, by decide, by norm_num [npMedian, sortQ, insertSorted]⟩
  · rw [e, m1, m2]
  · rw [e, m1, m2]
    rfl

set_option maxRecDepth 10000 in
/-- Claim C6 (code-bug evidence): for a negative default the code builds
`np.linspace(0, 256, 256)` and casts to `uint8`; entries 0..254 form the
ascending ramp, but the final entry is `256`, which wraps to 0 — the
docstring promises the range `[0, 255]`. -/
theorem createEmptyLUT_negative_ramp_bug :
    (LineScan.createEmptyLUT (Sum.inl (-1))).length = 256 ∧
    LineScan.createEmptyLUT (Sum.inl 0) = List.replicate 256 (0 : ℤ) ∧
    (∀ i : Fin 255, (LineScan.createEmptyLUT (Sum.inl (-1))).getD i.val 99 = i.val) ∧
    (LineScan.createEmptyLUT (Sum.inl (-1))).getD 255 99 = 0 := by decide

/-- Claim C1 counterexample: the resampled signal's coordinates are *not*
interpolated between the original first and last coordinate — the
constructor drops the `pointLoc` keyword and regenerates placeholder
`(i, i)` pairs. -/
theorem resample_coords_not_interpolated_cex :
    (sigAB.resample sps0 3).samples.length = 3 ∧
    (sigAB.resample sps0 3).pointLoc = [(0, 0), (1, 1), (2, 2)] ∧
    resampleSpecCoords sigAB 3 = [(10, 10), (15, 15), (20, 20)] ∧
    (sigAB.resample sps0 3).pointLoc ≠ resampleSpecCoords sigAB 3 := by
  have h1 : resampleSpecCoords sigAB 3 = [(10, 10), (15, 15), (20, 20)] := by
    norm_num [sigAB, resampleSpecCoords, linspaceQ, buildLineScan, List.range_succ]
  have h2 : (sigAB.resample sps0 3).pointLoc = [(0, 0), (1, 1), (2, 2)] := by
    norm_num [sigAB, sps0, LineScan.resample, buildLineScan, List.range_succ]
  refine ⟨by decide, h2, h1, ?_⟩
  rw [h2, h1]
  decide

/-- Claim C2 counterexample: on `[1, 2, 1]` the boundary indices 0 and 2
are *not* reported by `localMaxima` (each fails the strict comparison with
its single neighbor); only the interior peak at index 1 is. -/
theorem localMaxima_boundary_not_always_cex :
    sig121.samples = [1, 2, 1] ∧
    sig121.localMaxima.map (fun p => p.1) = [1] := by decide

/-- Claim C1 (amended): when the resampler returns `n` samples (the scipy
contract), the result has exactly `n` samples and exactly `n` coordinate
pairs — but those coordinates are the regenerated placeholders
`(0,0), (1,1), …, (n-1, n-1)`, not points interpolated between the
original endpoints: the constructor drops the `pointLoc` keyword. -/
theorem resample_length_and_placeholder_coords (S : LineScan ℚ)
    (sps : List ℚ → ℕ → List ℚ) (hsps : ∀ l m, (sps l m).length = m) (n : ℕ)
    (h2 : 2 ≤ S.samples.length) (hn : 1 ≤ n) :
    (S.resample sps n).samples.length = n ∧
    (S.resample sps n).pointLoc.length = n ∧
    (S.resample sps n).pointLoc = (List.range n).map (fun i : ℕ => ((i : ℚ), (i : ℚ))) := by
  have hpl : (S.resample sps n).pointLoc
      = (List.range n).map (fun i : ℕ => ((i : ℚ), (i : ℚ))) := by
    simp [LineScan.resample, buildLineScan, hsps]
  refine ⟨hsps _ _, ?_, hpl⟩
  rw [hpl, List.length_map, List.length_range]

/-- Claim C1 witness: the amended statement at the concrete two-sample
signal, a contract-satisfying resampler, and `n = 3`. -/
theorem resample_length_and_placeholder_coords_witness :
    (∀ l m, (sps0 l m).length = m) ∧ 2 ≤ sigAB.samples.length ∧ 1 ≤ 3 ∧
    ((sigAB.resample sps0 3).samples.length = 3 ∧
      (sigAB.resample sps0 3).pointLoc.length = 3 ∧
      (sigAB.resample sps0 3).pointLoc = (List.range 3).map (fun i : ℕ => ((i : ℚ), (i : ℚ)))) :=
  ⟨fun _ m => by simp [sps0], by decide, by decide,
    resample_length_and_placeholder_coords sigAB sps0 (fun _ m => by simp [sps0]) 3
      (by decide) (by decide)⟩

/-- Claim C2 (amended): an index is reported by `localMaxima` exactly when
it is in range, is either 0 or strictly exceeds its left neighbor, and is
either the last index or strictly exceeds its right neighbor — so interior
indices require a strict two-sided peak, while each boundary index is
reported iff it strictly exceeds its single neighbor (not always); dually
for `localMinima`. -/
theorem localExtrema_index_characterization (S : LineScan ℚ)
    (h2 : 2 ≤ S.samples.length) (i : ℕ) :
    (i ∈ S.localMaxima.map (fun p => p.1) ↔
      i < S.samples.length ∧
      (i = 0 ∨ S.samples.getD (i - 1) 0 < S.samples.getD i 0) ∧
      (i = S.samples.length - 1 ∨ S.samples.getD (i + 1) 0 < S.samples.getD i 0)) ∧
    (i ∈ S.localMinima.map (fun p => p.1) ↔
      i < S.samples.length ∧
      (i = 0 ∨ S.samples.getD i 0 < S.samples.getD (i - 1) 0) ∧
      (i = S.samples.length - 1 ∨ S.samples.getD i 0 < S.samples.getD (i + 1) 0)) := by
  refine ⟨?_, ?_⟩ <;>
  · simp only [LineScan.localMaxima, LineScan.localMinima, LineScan.localMaxIndices,
      LineScan.localMinIndices, List.map_map, List.mem_map, List.mem_filter, List.mem_range,
      Function.comp, Bool.and_eq_true, Bool.or_eq_true, decide_eq_true_eq]
    constructor
    · rintro ⟨a, ⟨ha, h1, h2⟩, rfl⟩
      exact ⟨ha, h1, h2⟩
    · rintro ⟨ha, h1, h2⟩
      exact ⟨i, ⟨ha, h1, h2⟩, rfl⟩

/-- Claim C2 witness: the characterization at the signal `[1, 2, 1]` and
index 1. -/
theorem localExtrema_index_characterization_witness :
    2 ≤ sig121.samples.length ∧
    ((1 ∈ sig121.localMaxima.map (fun p => p.1) ↔
      1 < sig121.samples.length ∧
      ((1 : ℕ) = 0 ∨ sig121.samples.getD 0 0 < sig121.samples.getD 1 0) ∧
      ((1 : ℕ) = sig121.samples.length - 1 ∨
        sig121.samples.getD 2 0 < sig121.samples.getD 1 0)) ∧
    (1 ∈ sig121.localMinima.map (fun p => p.1) ↔
      1 < sig121.samples.length ∧
      ((1 : ℕ) = 0 ∨ sig121.samples.getD 1 0 < sig121.samples.getD 0 0) ∧
      ((1 : ℕ) = sig121.samples.length - 1 ∨
        sig121.samples.getD 1 0 < sig121.samples.getD 2 0))) :=
  ⟨by decide, localExtrema_index_characterization sig121 (by decide) 1⟩

/-- A Python slice from a nonnegative start to a strictly negative stop:
drop the start amount, keep everything up to the tail-trim amount. -/
theorem pySlice_pos_neg (l : List α) (a b : ℕ) (h1 : 1 ≤ b) (ha : a ≤ l.length) :
    pySlice l (a : ℤ) (-(b : ℤ)) = (l.drop a).take (l.length - b - a) := by
  unfold pySlice pyRes
  rw [if_pos (by omega : -(b : ℤ) < 0), if_neg (by omega : ¬(a : ℤ) < 0)]
  have e1 : ((l.length : ℤ) + -(b : ℤ)).toNat = l.length - b := by omega
  have e2 : min ((a : ℤ)).toNat l.length = a := by omega
  rw [e1, e2, List.drop_take]

/-- Claim C4 counterexample: a kernel of length 1 (which satisfies
`1 ≤ k ≤ len(S)`) produces an *empty* result, not one of the original
length — the tail trim is 0 and the Python slice `out[kt:-0]` is
`out[kt:0] = []`. -/
theorem convolve_short_kernel_empty_cex :
    sig121.samples.length = 3 ∧
    (sig121.convolve [1]).samples = [] ∧
    (sig121.convolve [1, 1]).samples = [] := by
  refine ⟨by decide, ?_, ?_⟩ <;> rfl

/-- Claim C4 (amended): for kernels of length at least 3 (so that both trim
amounts are positive) the result is the full convolution with `k/2`
elements trimmed from the front and `k/2 - 1` from the tail for even `k`,
`(k-1)/2` from both ends for odd `k`, and it has exactly `len(S)` samples;
for `k ∈ {1, 2}` the result is instead empty. -/
theorem convolve_crop_alignment (S : LineScan ℚ) (kernel : List ℚ)
    (h3 : 3 ≤ kernel.length) (hk : kernel.length ≤ S.samples.length) :
    (npConvolve S.samples kernel).length = S.samples.length + kernel.length - 1 ∧
    (S.convolve kernel).samples =
      ((npConvolve S.samples kernel).drop
        (if kernel.length % 2 = 0 then kernel.length / 2 else (kernel.length - 1) / 2)).take
        S.samples.length ∧
    (S.convolve kernel).samples.length = S.samples.length := by
  set kt := if kernel.length % 2 = 0 then kernel.length / 2 else (kernel.length - 1) / 2
    with hkt
  set kl := if kernel.length % 2 = 0 then kernel.length / 2 - 1 else (kernel.length - 1) / 2
    with hkl
  have hlen : (npConvolve S.samples kernel).length = S.samples.length + kernel.length - 1 := by
    simp [npConvolve]
  have hcs : (S.convolve kernel).samples =
      pySlice (npConvolve S.samples kernel) (kt : ℤ) (-(kl : ℤ)) := rfl
  have hklpos : 1 ≤ kl := by
    rw [hkl]
    split <;> omega
  have hsum : kt + kl = kernel.length - 1 := by
    rw [hkt, hkl]
    split <;> omega
  have hktlen : kt ≤ (npConvolve S.samples kernel).length := by
    rw [hlen]
    omega
  have htake : (npConvolve S.samples kernel).length - kl - kt = S.samples.length := by
    rw [hlen]
    omega
  refine ⟨hlen, ?_, ?_⟩
  · rw [hcs, pySlice_pos_neg _ kt kl hklpos hktlen, htake]
  · rw [hcs, pySlice_pos_neg _ kt kl hklpos hktlen, htake]
    simp [List.length_take, List.length_drop, hlen]
    omega

/-- Claim C4 witness: the amended crop statement at the concrete signal
`[0, 10, 0, 10, 0]` and the kernel `[1, 2, 1]` of length 3. -/
theorem convolve_crop_alignment_witness :
    3 ≤ ([1, 2, 1] : List ℚ).length ∧ ([1, 2, 1] : List ℚ).length ≤ sigMed.samples.length ∧
    ((npConvolve sigMed.samples [1, 2, 1]).length = 7 ∧
      (sigMed.convolve [1, 2, 1]).samples =
        ((npConvolve sigMed.samples [1, 2, 1]).drop 1).take 5 ∧
      (sigMed.convolve [1, 2, 1]).samples.length = 5) :=
  ⟨by decide, by decide, convolve_crop_alignment sigMed [1, 2, 1] (by decide) (by decide)⟩

/-- The start value of a running `max` fold is a lower bound of its result. -/
theorem le_foldl_max : ∀ (t : List ℚ) (a : ℚ), a ≤ t.foldl max a := by
  intro t
  induction t with
  | nil => intro a; exact le_refl a
  | cons h tl ih => intro a; exact le_trans (le_max_left a h) (ih (max a h))

/-- Every element of the folded list is bounded by the running `max`. -/
theorem mem_le_foldl_max : ∀ (t : List ℚ) (a x : ℚ), x ∈ t → x ≤ t.foldl max a := by
  intro t
  induction t with
  | nil => intro a x hx; cases hx
  | cons h tl ih =>
      intro a x hx
      rcases List.mem_cons.mp hx with rfl | hxt
      · exact le_trans (le_max_right a x) (le_foldl_max tl (max a x))
      · exact ih (max a h) x hxt

/-- A running `max` fold returns its start value or a list element. -/
theorem foldl_max_mem : ∀ (t : List ℚ) (a : ℚ), t.foldl max a = a ∨ t.foldl max a ∈ t := by
  intro t
  induction t with
  | nil => intro a; exact Or.inl rfl
  | cons h tl ih =>
      intro a
      rcases ih (max a h) with he | hm
      · rcases max_choice a h with hc | hc
        · exact Or.inl (by rw [List.foldl_cons, he, hc])
        · exact Or.inr (by rw [List.foldl_cons, he, hc]; exact List.mem_cons_self h tl)
      · exact Or.inr (List.mem_cons_of_mem h hm)

/-- The start value of a running `min` fold bounds its result. -/
theorem foldl_min_le : ∀ (t : List ℚ) (a : ℚ), t.foldl min a ≤ a := by
  intro t
  induction t with
  | nil => intro a; exact le_refl a
  | cons h tl ih => intro a; exact le_trans (ih (min a h)) (min_le_left a h)

/-- The running `min` is bounded by every element of the folded list. -/
theorem foldl_min_le_mem : ∀ (t : List ℚ) (a x : ℚ), x ∈ t → t.foldl min a ≤ x := by
  intro t
  induction t with
  | nil => intro a x hx; cases hx
  | cons h tl ih =>
      intro a x hx
      rcases List.mem_cons.mp hx with rfl | hxt
      · exact le_trans (foldl_min_le tl (min a x)) (min_le_right a x)
      · exact ih (min a h) x hxt

/-- A running `min` fold returns its start value or a list element. -/
theorem foldl_min_mem : ∀ (t : List ℚ) (a : ℚ), t.foldl min a = a ∨ t.foldl min a ∈ t := by
  intro t
  induction t with
  | nil => intro a; exact Or.inl rfl
  | cons h tl ih =>
      intro a
      rcases ih (min a h) with he | hm
      · rcases min_choice a h with hc | hc
        · exact Or.inl (by rw [List.foldl_cons, he, hc])
        · exact Or.inr (by rw [List.foldl_cons, he, hc]; exact List.mem_cons_self h tl)
      · exact Or.inr (List.mem_cons_of_mem h hm)

/-- `np.max` of a nonempty list is attained by some element. -/
theorem npMax_mem : ∀ (l : List ℚ), l ≠ [] → npMax l ∈ l := by
  intro l hne
  match l with
  | h0 :: t =>
    show t.foldl max h0 ∈ h0 :: t
    rcases foldl_max_mem t h0 with he | hm
    · rw [he]; exact List.mem_cons_self _ _
    · exact List.mem_cons_of_mem _ hm

/-- `np.max` bounds every element of the list. -/
theorem le_npMax : ∀ (l : List ℚ) (x : ℚ), x ∈ l → x ≤ npMax l := by
  intro l x hx
  match l with
  | h0 :: t =>
    show x ≤ t.foldl max h0
    rcases List.mem_cons.mp hx with rfl | hxt
    · exact le_foldl_max t x
    · exact mem_le_foldl_max t h0 x hxt

/-- `np.min` of a nonempty list is attained by some element. -/
theorem npMin_mem : ∀ (l : List ℚ), l ≠ [] → npMin l ∈ l := by
  intro l hne
  match l with
  | h0 :: t =>
    show t.foldl min h0 ∈ h0 :: t
    rcases foldl_min_mem t h0 with he | hm
    · rw [he]; exact List.mem_cons_self _ _
    · exact List.mem_cons_of_mem _ hm

/-- `np.min` is a lower bound of every element of the list. -/
theorem npMin_le : ∀ (l : List ℚ) (x : ℚ), x ∈ l → npMin l ≤ x := by
  intro l x hx
  match l with
  | h0 :: t =>
    show t.foldl min h0 ≤ x
    rcases List.mem_cons.mp hx with rfl | hxt
    · exact foldl_min_le t x
    · exact foldl_min_le_mem t h0 x hxt

/-- Claim C7: on a nonempty signal with enough coordinates, `maxima`
(dually `minima`) returns one `(index, value, coordinate)` tuple for every
index attaining the global extreme — all ties — in ascending index order,
with the extreme value and the matching coordinate attached. -/
theorem maxima_minima_report_all_ties (S : LineScan ℚ) (hne : S.samples ≠ [])
    (hlen : S.samples.length ≤ S.pointLoc.length) :
    (npMax S.samples ∈ S.samples ∧ ∀ x ∈ S.samples, x ≤ npMax S.samples) ∧
    (∀ p : ℕ × ℚ × (ℚ × ℚ), p ∈ S.maxima ↔
      p.1 < S.samples.length ∧ S.samples.getD p.1 0 = npMax S.samples ∧
      p.2.1 = npMax S.samples ∧ p.2.2 = S.pointLoc.getD p.1 (0, 0)) ∧
    (S.maxima.map (fun p => p.1)).Pairwise (· < ·) ∧
    (npMin S.samples ∈ S.samples ∧ ∀ x ∈ S.samples, npMin S.samples ≤ x) ∧
    (∀ p : ℕ × ℚ × (ℚ × ℚ), p ∈ S.minima ↔
      p.1 < S.samples.length ∧ S.samples.getD p.1 0 = npMin S.samples ∧
      p.2.1 = npMin S.samples ∧ p.2.2 = S.pointLoc.getD p.1 (0, 0)) ∧
    (S.minima.map (fun p => p.1)).Pairwise (· < ·) := by
  refine ⟨⟨npMax_mem _ hne, fun x hx => le_npMax _ x hx⟩, ?_, ?_,
    ⟨npMin_mem _ hne, fun x hx => npMin_le _ x hx⟩, ?_, ?_⟩
  · intro p
    simp only [LineScan.maxima, List.mem_map, List.mem_filter, List.mem_range,
      decide_eq_true_eq]
    constructor
    · rintro ⟨i, ⟨hi, hs⟩, rfl⟩
      exact ⟨hi, hs, rfl, rfl⟩
    · rintro ⟨h1, h2, h3, h4⟩
      exact ⟨p.1, ⟨h1, h2⟩, by rw [← h3, ← h4]⟩
  · simp only [LineScan.maxima, List.map_map]
    exact ((List.pairwise_lt_range _).sublist (List.filter_sublist _)).map _
      (fun a b hab => hab)
  · intro p
    simp only [LineScan.minima, List.mem_map, List.mem_filter, List.mem_range,
      decide_eq_true_eq]
    constructor
    · rintro ⟨i, ⟨hi, hs⟩, rfl⟩
      exact ⟨hi, hs, rfl, rfl⟩
    · rintro ⟨h1, h2, h3, h4⟩
      exact ⟨p.1, ⟨h1, h2⟩, by rw [← h3, ← h4]⟩
  · simp only [LineScan.minima, List.map_map]
    exact ((List.pairwise_lt_range _).sublist (List.filter_sublist _)).map _
      (fun a b hab => hab)

/-- Claim C7 witness: the constant signal `[5, 5, 5]` (with default
coordinates) has every index reported by both `maxima` and `minima`. -/
theorem maxima_minima_report_all_ties_witness :
    sig555.samples ≠ [] ∧ sig555.samples.length ≤ sig555.pointLoc.length ∧
    sig555.maxima = [(0, 5, 0, 0), (1, 5, 1, 1), (2, 5, 2, 2)] ∧
    (npMax sig555.samples ∈ sig555.samples ∧
      ∀ x ∈ sig555.samples, x ≤ npMax sig555.samples) :=
  ⟨by decide, by decide, by decide,
    (maxima_minima_report_all_ties sig555 (by decide) (by decide)).1⟩

/-- A nonreal `2πi·d/n` exponential is 1 only when `n` divides `d`. -/
theorem exp_unit_ne_one (n : ℕ) (hn : 0 < n) (d : ℤ) (hd : ¬((n : ℤ) ∣ d)) :
    Complex.exp (2 * (Real.pi : ℂ) * Complex.I * d / n) ≠ 1 := by
  intro h
  rcases Complex.exp_eq_one_iff.mp h with ⟨t, ht⟩
  apply hd
  refine ⟨t, ?_⟩
  have hc : (2 * (Real.pi : ℂ) * Complex.I) ≠ 0 := by
    simp [Real.pi_ne_zero, Complex.I_ne_zero, Complex.ofReal_ne_zero]
  have hn0 : ((n : ℂ)) ≠ 0 := Nat.cast_ne_zero.mpr hn.ne'
  have : (d : ℂ) = n * t := by
    field_simp at ht
    have h2 : (2 * (Real.pi : ℂ) * Complex.I) * (d : ℂ) =
        (2 * (Real.pi : ℂ) * Complex.I) * ((n : ℂ) * t) := by
      ring_nf
      ring_nf at ht
      linear_combination ht
    have := mul_left_cancel₀ hc h2
    exact this
  exact_mod_cast this

/-- The `n`-th power of `exp(2πi·d/n)` is 1. -/
theorem exp_unit_pow_n (n : ℕ) (hn : 0 < n) (d : ℤ) :
    Complex.exp (2 * (Real.pi : ℂ) * Complex.I * d / n) ^ n = 1 := by
  have hn0 : ((n : ℂ)) ≠ 0 := Nat.cast_ne_zero.mpr hn.ne'
  rw [← Complex.exp_nat_mul]
  have harg : (n : ℂ) * (2 * (Real.pi : ℂ) * Complex.I * d / n) =
      (d : ℂ) * (2 * (Real.pi : ℂ) * Complex.I) := by
    field_simp
    ring
  rw [harg]
  exact_mod_cast Complex.exp_int_mul_two_pi_mul_I d

/-- The powers of a nontrivial `n`-th root of unity sum to zero. -/
theorem sum_exp_unit_eq_zero (n : ℕ) (hn : 0 < n) (d : ℤ) (hd : ¬((n : ℤ) ∣ d)) :
    ∑ k ∈ Finset.range n, Complex.exp (2 * (Real.pi : ℂ) * Complex.I * d / n) ^ k = 0 := by
  rw [geom_sum_eq (exp_unit_ne_one n hn d hd) n, exp_unit_pow_n n hn d, sub_self]
  simp

/-- Combine the forward and inverse transform kernels into a power of a
single root of unity. -/
theorem step1_exp (n j k m : ℕ) :
    Complex.exp (-(2 * (Real.pi : ℂ) * Complex.I * j * k) / n) *
      Complex.exp (2 * (Real.pi : ℂ) * Complex.I * k * m / n)
    = Complex.exp (2 * (Real.pi : ℂ) * Complex.I * (((m : ℤ) - (j : ℤ)) : ℤ) / n) ^ k := by
  rw [← Complex.exp_add, ← Complex.exp_nat_mul]
  congr 1
  push_cast
  ring

/-- Fourier inversion for the discrete transform, at one output index. -/
theorem dft_inversion (n : ℕ) (x : ℕ → ℂ) (m : ℕ) (hm : m < n) :
    (∑ k ∈ Finset.range n,
      (∑ j ∈ Finset.range n,
        x j * Complex.exp (-(2 * (Real.pi : ℂ) * Complex.I * j * k) / n)) *
      Complex.exp (2 * (Real.pi : ℂ) * Complex.I * k * m / n)) / n = x m := by
  have hn : 0 < n := by omega
  have hn0 : ((n : ℂ)) ≠ 0 := Nat.cast_ne_zero.mpr hn.ne'
  have step2 : ∀ j ∈ Finset.range n,
      (∑ k ∈ Finset.range n,
        Complex.exp (2 * (Real.pi : ℂ) * Complex.I * (((m : ℤ) - (j : ℤ)) : ℤ) / n) ^ k)
      = if j = m then (n : ℂ) else 0 := by
    intro j hj
    by_cases hjm : j = m
    · subst hjm
      simp
    · rw [if_neg hjm]
      apply sum_exp_unit_eq_zero n hn
      intro hdvd
      have hz : (m : ℤ) - j = 0 := by
        refine Int.eq_zero_of_abs_lt_dvd hdvd ?_
        rw [abs_lt]
        have hjn := Finset.mem_range.mp hj
        omega
      exact hjm (by omega)
  have key : (∑ k ∈ Finset.range n,
      (∑ j ∈ Finset.range n,
        x j * Complex.exp (-(2 * (Real.pi : ℂ) * Complex.I * j * k) / n)) *
      Complex.exp (2 * (Real.pi : ℂ) * Complex.I * k * m / n)) = x m * n := by
    have e1 : ∀ k ∈ Finset.range n,
        (∑ j ∈ Finset.range n,
          x j * Complex.exp (-(2 * (Real.pi : ℂ) * Complex.I * j * k) / n)) *
          Complex.exp (2 * (Real.pi : ℂ) * Complex.I * k * m / n)
        = ∑ j ∈ Finset.range n, x j *
            Complex.exp (2 * (Real.pi : ℂ) * Complex.I * (((m : ℤ) - (j : ℤ)) : ℤ) / n) ^ k := by
      intro k hk
      rw [Finset.sum_mul]
      refine Finset.sum_congr rfl (fun j hj => ?_)
      rw [mul_assoc, step1_exp n j k m]
    rw [Finset.sum_congr rfl e1, Finset.sum_comm]
    have e2 : ∀ j ∈ Finset.range n,
        (∑ k ∈ Finset.range n, x j *
          Complex.exp (2 * (Real.pi : ℂ) * Complex.I * (((m : ℤ) - (j : ℤ)) : ℤ) / n) ^ k)
        = if j = m then x j * n else 0 := by
      intro j hj
      rw [← Finset.mul_sum, step2 j hj]
      by_cases hjm : j = m
      · rw [if_pos hjm, if_pos hjm]
      · rw [if_neg hjm, if_neg hjm, mul_zero]
    rw [Finset.sum_congr rfl e2,
      Finset.sum_ite_eq' (Finset.range n) m (fun j => x j * (n : ℂ)),
      if_pos (Finset.mem_range.mpr hm)]
  rw [key, mul_div_assoc, div_self hn0, mul_one]

/-- The inverse transform of the forward transform of a real list gives
back the list (real parts taken). -/
theorem npIFFT_npFFT (l : List ℝ) : (npIFFT (npFFT l)).map Complex.re = l := by
  have hfl : (npFFT l).length = l.length := by simp [npFFT]
  apply List.ext_getElem
  · simp [npIFFT, npFFT]
  · intro i h1 h2
    simp only [List.getElem_map, npIFFT, List.getElem_ofFn, Fin.val_mk]
    rw [hfl]
    have hent : ∀ k ∈ Finset.range l.length,
        (npFFT l).getD k 0 * Complex.exp (2 * (Real.pi : ℂ) * Complex.I * k * i / l.length)
        = (∑ j ∈ Finset.range l.length, ((l.getD j 0 : ℝ) : ℂ) *
            Complex.exp (-(2 * (Real.pi : ℂ) * Complex.I * j * k) / l.length)) *
          Complex.exp (2 * (Real.pi : ℂ) * Complex.I * k * i / l.length) := by
      intro k hk
      have hk2 : k < (npFFT l).length := by
        rw [hfl]
        exact Finset.mem_range.mp hk
      rw [List.getD_eq_getElem?_getD, List.getElem?_eq_getElem hk2]
      simp only [npFFT, List.getElem_ofFn, Fin.val_mk, Option.getD_some]
    rw [Finset.sum_congr rfl hent,
      dft_inversion l.length (fun j => ((l.getD j 0 : ℝ) : ℂ)) i h2]
    simp only [Complex.ofReal_re]
    rw [List.getD_eq_getElem?_getD, List.getElem?_eq_getElem h2]
    rfl

/-- A one-sample real signal. -/
def sigR2 : LineScan ℝ := ⟨[1], [(0, 0)], none, none, none, none⟩

/-- Claim C8: over exact complex arithmetic, `S.ifft(S.fft()[0])` — the
forward DFT followed by the inverse DFT, keeping the real part — returns a
signal whose samples are exactly the original samples. -/
theorem fft_ifft_roundtrip (S : LineScan ℝ) (hne : S.samples ≠ []) :
    (S.ifft (S.fft).1).samples = S.samples :=
  npIFFT_npFFT S.samples

/-- Claim C8 witness: the round trip at the concrete one-sample signal. -/
theorem fft_ifft_roundtrip_witness :
    sigR2.samples ≠ [] ∧ (sigR2.ifft (sigR2.fft).1).samples = sigR2.samples :=
  ⟨by simp [sigR2], fft_ifft_roundtrip sigR2 (by simp [sigR2])⟩

end SimpleCV
